import Mathlib

/-!
Verification development for the cbconf multi-source configuration
resolution pipeline (settings.py, sources.py, registry.py, validators.py).

The Python code is shallowly embedded: Python dicts become insertion-ordered
association lists with Python assignment semantics (update in place, append
when fresh), fallible code returns `Except`, file-system and JSON-decoder
collaborators are explicit functional parameters, and each embedded
definition mirrors one Python function, named after it where possible.
-/

namespace Cbconf

/-- A raw configuration value as it flows through the pipeline before
validation: a string, a number, a boolean, Python `None`, a list, or a
nested mapping (`dict`). -/
inductive Val where
  | vStr (s : String)
  | vInt (n : Int)
  | vBool (b : Bool)
  | vNone
  | vList (xs : List Val)
  | vObj (entries : List (String × Val))

/-- A Python `Dict[str, Any]` of raw values, in insertion order. -/
abbrev Dict := List (String × Val)

/-- Whether a value is a Python `dict` (`isinstance(v, dict)`). -/
def Val.isObj : Val → Bool
  | .vObj _ => true
  | _ => false

/-- Python `d.get(key)`: the value stored at `key`, if present. -/
def dictGet {α : Type} : List (String × α) → String → Option α
  | [], _ => none
  | (k, v) :: rest, key => if k = key then some v else dictGet rest key

/-- Python `d[key] = val`: update the existing entry in place, else append. -/
def dictSet {α : Type} : List (String × α) → String → α → List (String × α)
  | [], key, val => [(key, val)]
  | (k, v) :: rest, key, val =>
      if k = key then (k, val) :: rest else (k, v) :: dictSet rest key val

/-- Build a Python dict from a list of key/value pairs, later duplicates
overwriting earlier ones (the semantics of a dict comprehension). -/
def pyDict {α : Type} (l : List (String × α)) : List (String × α) :=
  l.foldl (fun d kv => dictSet d kv.1 kv.2) []

/-- The keys of a dict. -/
def dictKeys {α : Type} (d : List (String × α)) : List String :=
  d.map Prod.fst

/-! ## Python string primitives

The string operations the sources rely on (`str.lower`, `str.strip`,
`str.startswith`, `str.split`) are embedded by structural recursion on
the character list of the string, so that every embedded definition
evaluates inside the kernel. -/

/-- Python `str.lower()` (ASCII case folding). -/
def pyLower (s : String) : String :=
  ⟨s.data.map Char.toLower⟩

/-- Python `str.strip()`: remove leading and trailing whitespace. -/
def pyStrip (s : String) : String :=
  ⟨((s.data.dropWhile Char.isWhitespace).reverse.dropWhile
      Char.isWhitespace).reverse⟩

/-- Drop `pre` from the front of `l` when it is a prefix. -/
def dropPre : List Char → List Char → Option (List Char)
  | [], l => some l
  | _ :: _, [] => none
  | p :: ps, c :: cs => if c = p then dropPre ps cs else none

/-- Python `str.startswith(pre)`. -/
def pyStartsWith (s pre : String) : Bool :=
  (dropPre pre.data s.data).isSome

/-- The splitting loop of Python `str.split(sep)` for a non-empty
separator: emit the accumulated chunk at each leftmost non-overlapping
occurrence of `sep`.  The fuel argument (one unit per consumed
character) makes the recursion structural. -/
def splitListAux (sep : List Char) : Nat → List Char → List Char →
    List (List Char)
  | 0, acc, _ => [acc.reverse]
  | _ + 1, acc, [] => [acc.reverse]
  | fuel + 1, acc, c :: cs =>
      match dropPre sep (c :: cs) with
      | some rest => acc.reverse :: splitListAux sep fuel [] rest
      | none => splitListAux sep fuel (c :: acc) cs

/-- Python `str.split(sep)` for a non-empty separator. -/
def splitList (s sep : String) : List String :=
  (splitListAux sep.data (s.data.length + 1) [] s.data).map List.asString

/-- `pydantic.utils.deep_update` restricted to one updating mapping:
start from a copy of `m` and fold the entries of `um` into it; when both
sides at a key are dicts, merge recursively, otherwise the updating entry
replaces outright. -/
def deepUpdate2 : Dict → Dict → Dict
  | m, [] => m
  | m, (k, Val.vObj o2) :: rest =>
      let newVal : Val :=
        match dictGet m k with
        | some (Val.vObj o1) => Val.vObj (deepUpdate2 o1 o2)
        | _ => Val.vObj o2
      deepUpdate2 (dictSet m k newVal) rest
  | m, (k, v) :: rest => deepUpdate2 (dictSet m k v) rest
termination_by m um => sizeOf um
decreasing_by all_goals simp_wf <;> omega

/-- `pydantic.utils.deep_update(mapping, *updating_mappings)`: fold every
updating mapping into the first, later arguments winning on collision. -/
def deep_update : List Dict → Dict
  | [] => []
  | m :: rest => rest.foldl deepUpdate2 m

/-- The merge step of `Settings._build_values` (settings.py line 110):
`deep_update(*reversed([source(self) for source in config_sources]))`,
where `config_sources` is `InitSource(values)` followed by the configured
sources in declaration order.  `initValues` is the mapping returned by
`InitSource` (the caller-supplied values) and `sourceResults` are the
mappings returned by the configured sources, in invocation order. -/
def build_values (initValues : Dict) (sourceResults : List Dict) : Dict :=
  deep_update (initValues :: sourceResults).reverse

/-- The value supplied for `key` by the first mapping in `ms` that
contains it (the highest-precedence source holding the key). -/
def firstGet : List Dict → String → Option Val
  | [], _ => none
  | m :: rest, key =>
      match dictGet m key with
      | some v => some v
      | none => firstGet rest key

/-! ## Field descriptors (pydantic `ModelField` as consumed by the sources)

The sources only inspect a handful of facts about a schema field: its
name, its aliasName, the optional `env` name override from
`field_info.extra`, the optional `matchfull` pattern, and two
type-shape predicates computed by pydantic (`field.is_complex()` and
the union-with-a-complex-alternative test of
`EnvSource.field_is_complex`).  Those facts become the components of
`FieldSpec`; the compiled regex of `matchfull` is embedded as the
function `re.fullmatch(pattern, ·)` returning the tuple
`match.groups()` (whose members are `Optional[str]`) on a full match. -/

/-- The facts of a pydantic `ModelField` consumed by the cbconf sources. -/
structure FieldSpec where
  name : String
  aliasName : String
  /-- `field.field_info.extra.get("env", field.name)` already coerced to a
  list (`_get_source_names` wraps a bare string into a singleton list). -/
  env_names : Option (List String) := none
  /-- `field.field_info.extra.get("matchfull", None)` as the matching
  function of the compiled pattern: `re.fullmatch(pattern, k).groups()`. -/
  matchfull : Option (String → Option (List (Option String))) := none
  /-- pydantic `field.is_complex()`. -/
  is_complex : Bool := false
  /-- `is_union(get_origin(field.type_)) and field.sub_fields and
  any(f.is_complex() for f in field.sub_fields)`. -/
  union_with_complex_alt : Bool := false
  /-- `field.field_info.extra.get("ini_section", ...)` override. -/
  ini_section : Option String := none
  /-- `field.field_info.extra.get("ini", field.name)` override. -/
  ini : Option String := none

/-- The case transform of the sources: `str.lower if not case_sensitive
else lambda x: x`. -/
def xformName (case_sensitive : Bool) (s : String) : String :=
  if case_sensitive then s else pyLower s

/-- `_get_source_names(field, "env", transform=xform)` (sources.py
lines 297-305): the per-kind name override if present, else the field
name, with the case transform applied to every candidate. -/
def get_source_names (f : FieldSpec) (case_sensitive : Bool) : List String :=
  (f.env_names.getD [f.name]).map (xformName case_sensitive)

/-! ## EnvSource -/

/-- The constructor arguments of `EnvSource.__init__` (sources.py lines
59-72) with their literal Python default values.  The env-file path is
carried but the dotenv file read (an I/O action) is modelled as absent,
matching the default `env_file=None`. -/
structure EnvSourceCfg where
  env_file : Option String := none
  env_file_encoding : Option String := none
  env_nested_delimiter : Option String := none
  /-- `env_prefix`. -/
  envPre : Option String := none
  case_sensitive : Bool := true

/-- Python `Optional[str]` environment variable values: `os.environ`
always holds strings, but a dotenv file may map a key to `None`, so the
merged `env_vars` mapping has `Optional[str]` values. -/
abbrev EnvVars := List (String × Option String)

/-- Store an `Optional[str]` environment value into a result dict. -/
def optVal : Option String → Val
  | some s => .vStr s
  | none => .vNone

/-- Python `str.split(sep)`: raises `ValueError: empty separator` when
`sep` is the empty string, otherwise splits on every occurrence. -/
def pySplit (s sep : String) : Except String (List String) :=
  if sep = "" then .error "ValueError: empty separator"
  else .ok (splitList s sep)

/-- The env-candidate lookup loop (sources.py lines 115-118): the first
candidate name whose entry in `env_vars` holds a non-`None` value. -/
def envLookup (env_vars : EnvVars) : List String → Option String
  | [] => none
  | n :: rest =>
      match dictGet env_vars n with
      | some (some v) => some v
      | _ => envLookup env_vars rest

/-- `if self.env_prefix:` (sources.py lines 112-113): prefix every
candidate when the prefix is truthy (neither `None` nor empty). -/
def applyEnvPre (pre : Option String) (names : List String) : List String :=
  match pre with
  | some p => if p = "" then names else names.map (fun n => p ++ n)
  | none => names

/-- `EnvSource.field_is_complex` (sources.py lines 147-155): returns
`(is_complex, allow_json_failure)`. -/
def field_is_complex (f : FieldSpec) : Bool × Bool :=
  if f.is_complex then (true, false)
  else if f.union_with_complex_alt then (true, true)
  else (false, false)

/-- The nested write of `explode_env_vars` (sources.py lines 166-170):
`_, *keys, last_key = env_name.split(...)` followed by walking
`setdefault(key, {})` and assigning `env_var[last_key] = env_val`.
Walking into an existing non-dict value is the Python `TypeError` /
`AttributeError` of indexing into a non-dict. -/
def setNested (d : Dict) (keys : List String) (lastKey : String) (v : Val) :
    Except String Dict :=
  match keys with
  | [] => .ok (dictSet d lastKey v)
  | k :: ks =>
      match dictGet d k with
      | some (Val.vObj o) => do
          let o2 ← setNested o ks lastKey v
          .ok (dictSet d k (Val.vObj o2))
      | some _ => .error "TypeError: nested value is not a dict"
      | none => do
          let o2 ← setNested [] ks lastKey v
          .ok (dictSet d k (Val.vObj o2))

/-- One iteration of the `explode_env_vars` loop over `env_vars.items()`
(sources.py lines 163-170). -/
def explodeStep (prefixes : List String) (delim : String)
    (result : Dict) (kv : String × Option String) : Except String Dict :=
  if prefixes.any (fun p => pyStartsWith kv.1 p) then do
    let parts ← pySplit kv.1 delim
    match parts with
    | _ :: rest =>
        match rest.getLast? with
        | some lastKey => setNested result rest.dropLast lastKey (optVal kv.2)
        | none => .error "ValueError: not enough values to unpack"
    | [] => .error "ValueError: not enough values to unpack"
  else .ok result

/-- `EnvSource.explode_env_vars` (sources.py lines 157-172): normalise
the delimiter with `env_nested_delimiter or ""`, build the candidate
prefixes `env_name + delimiter`, and fold every matching environment
variable into a nested dict. -/
def explode_env_vars (env_vars : EnvVars) (env_names : List String)
    (env_nested_delimiter : Option String) : Except String Dict :=
  let delim := env_nested_delimiter.getD ""
  let prefixes := env_names.map (fun n => n ++ delim)
  env_vars.foldlM (explodeStep prefixes delim) []

/-- One iteration of the `matchfull` scan (sources.py lines 100-109):
on a full match, ensure `d[field.aliasName]` is a dict, then key the entry
by `groups()[0]` when the pattern has exactly one capture group and by
`groups()[1]` otherwise, lower-cased.  A missing index is the Python
`IndexError`, a `None` group the `AttributeError` of `.lower()`, and a
non-dict previous aliasName value the `TypeError` of item assignment. -/
def matchStep (pat : String → Option (List (Option String))) (aliasName : String)
    (d : Dict) (kv : String × Option String) : Except String Dict :=
  match pat kv.1 with
  | none => .ok d
  | some groups =>
      let d1 := if (dictGet d aliasName).isSome then d else dictSet d aliasName (.vObj [])
      match dictGet d1 aliasName with
      | some (Val.vObj o) =>
          match (if groups.length == 1 then groups.get? 0 else groups.get? 1) with
          | some (some g) =>
              .ok (dictSet d1 aliasName (.vObj (dictSet o (pyLower g) (optVal kv.2))))
          | some none => .error "AttributeError: NoneType has no attribute lower"
          | none => .error "IndexError: tuple index out of range"
      | _ => .error "TypeError: value is not a dict"

/-- The per-field body of `EnvSource.__call__` (sources.py lines
96-143), acting on the prepared `env_vars` mapping. -/
def envProcessField (delim pre : Option String)
    (json_loads : String → Option Val) (env_vars : EnvVars)
    (case_sensitive : Bool) (d : Dict) (f : FieldSpec) : Except String Dict :=
  match f.matchfull with
  | some pat => env_vars.foldlM (matchStep pat f.aliasName) d
  | none =>
      let env_names := applyEnvPre pre (get_source_names f case_sensitive)
      let env_val := envLookup env_vars env_names
      let c := field_is_complex f
      if c.1 then
        match env_val with
        | none => do
            let built ← explode_env_vars env_vars env_names delim
            if built.isEmpty then .ok d else .ok (dictSet d f.aliasName (.vObj built))
        | some s => do
            let ev : Val ←
              match json_loads s with
              | some jv => Except.ok jv
              | none =>
                  if c.2 then Except.ok (Val.vStr s)
                  else Except.error ("SettingsError: error parsing JSON for " ++ s)
            match ev with
            | Val.vObj o => do
                let built ← explode_env_vars env_vars env_names delim
                .ok (dictSet d f.aliasName (.vObj (deepUpdate2 o built)))
            | _ => .ok (dictSet d f.aliasName ev)
      else
        match env_val with
        | some s => .ok (dictSet d f.aliasName (.vStr s))
        | none => .ok d

/-- `EnvSource.__call__` (sources.py lines 74-145) with `env_file`
absent: prepare `env_vars` from the process environment (lower-casing
keys when case-insensitive, duplicate lowered keys resolved like the
dict comprehension, last one winning) and process every schema field in
order.  `json_loads` is the schema's configured `Config.json_loads`
decoder (`None` modelling a raised `ValueError`). -/
def envSourceCall (cfg : EnvSourceCfg) (json_loads : String → Option Val)
    (environ : List (String × String)) (fields : List FieldSpec) :
    Except String Dict :=
  let env_vars : EnvVars :=
    if cfg.case_sensitive then
      pyDict (environ.map (fun kv => (kv.1, some kv.2)))
    else
      pyDict (environ.map (fun kv => (pyLower kv.1, some kv.2)))
  fields.foldlM
    (envProcessField cfg.env_nested_delimiter cfg.envPre json_loads env_vars
      cfg.case_sensitive) []

/-! ## SecretsSource

File-system access is embedded as an explicit record of the path
predicates and the read used by `SecretsSource.__call__`. -/

/-- The file-system facts consulted by `SecretsSource.__call__`:
`Path.expanduser`, `Path.exists`, `Path.is_dir`, `Path.is_file` and
`Path.read_text`. -/
structure Fs where
  expanduser : String → String
  pathExists : String → Bool
  isDir : String → Bool
  isFile : String → Bool
  readText : String → String

/-- The errors `SecretsSource.__call__` can raise: `SettingsError` for a
non-directory `secrets_dir` (sources.py line 213) and `SettingsError`
for a JSON decode failure of a complex field (line 228). -/
inductive SourceErr where
  | notADirectory (p : String)
  | jsonDecode (name : String)

/-- The warning emitted for a missing secrets directory (line 209). -/
def warnMissingDir (p : String) : String :=
  "directory does not exist: " ++ p

/-- The warning emitted for a secret path that exists but is not a
regular file (lines 231-234). -/
def warnSkipSecret (p : String) : String :=
  "attempted to load secret file but found a non-file: " ++ p

/-- One iteration of the candidate loop of `SecretsSource.__call__`
(sources.py lines 220-234): load `secrets_path / env_name` when it is a
regular file (JSON-decoding complex fields), warn when it exists but is
not a regular file, and continue otherwise. -/
def secretStep (fs : Fs) (secretsPath : String)
    (json_loads : String → Option Val) (f : FieldSpec)
    (acc : Dict × List String) (name : String) :
    Except SourceErr (Dict × List String) :=
  let path := secretsPath ++ "/" ++ name
  if fs.isFile path then
    let secret_value := pyStrip (fs.readText path)
    if f.is_complex then
      match json_loads secret_value with
      | some v => .ok (dictSet acc.1 f.aliasName v, acc.2)
      | none => .error (.jsonDecode name)
    else
      .ok (dictSet acc.1 f.aliasName (.vStr secret_value), acc.2)
  else if fs.pathExists path then
    .ok (acc.1, acc.2 ++ [warnSkipSecret path])
  else
    .ok acc

/-- The per-field candidate loop of `SecretsSource.__call__` (sources.py
lines 218-234), threading the `(secrets, warnings)` accumulator. -/
def secretsProcessField (fs : Fs) (secretsPath : String)
    (case_sensitive : Bool) (json_loads : String → Option Val)
    (acc : Dict × List String) (f : FieldSpec) :
    Except SourceErr (Dict × List String) :=
  (get_source_names f case_sensitive).foldlM
    (secretStep fs secretsPath json_loads f) acc

/-- `SecretsSource.__call__` (sources.py lines 200-236): empty result
when no directory is configured; warning and empty result when the
expanded path does not exist; `SettingsError` when it exists but is not
a directory; otherwise the per-field candidate loop.  The result pairs
the returned mapping with the warnings emitted. -/
def secretsCall (secrets_dir : Option String) (case_sensitive : Bool)
    (fs : Fs) (json_loads : String → Option Val) (fields : List FieldSpec) :
    Except SourceErr (Dict × List String) :=
  match secrets_dir with
  | none => .ok ([], [])
  | some dir =>
      let secretsPath := fs.expanduser dir
      if fs.pathExists secretsPath = false then
        .ok ([], [warnMissingDir secretsPath])
      else if fs.isDir secretsPath = false then
        .error (.notADirectory secretsPath)
      else
        fields.foldlM (secretsProcessField fs secretsPath case_sensitive json_loads)
          ([], [])

/-! ## IniFileSource

The file checks and `ConfigParser` parsing of sources.py lines 260-280
are I/O against an external library; the parsed document is embedded as
the lookup function `parser.get(section, key, raw=True, fallback=None)`
and the resolved default section as a string, which is all the field
loop of lines 282-294 consumes. -/

/-- The per-field section/key resolution of `IniFileSource.__call__`
(sources.py lines 284-289): the `ini_section` extra or the default
section, the `ini` extra or the field name, both lower-cased unless
case-sensitive, then looked up in the parsed document. -/
def iniResolve (case_sensitive : Bool) (defaultSection : String)
    (iniGet : String → String → Option String) (f : FieldSpec) :
    Option String :=
  let sect := f.ini_section.getD defaultSection
  let key := f.ini.getD f.name
  let sect := if case_sensitive then sect else pyLower sect
  let key := if case_sensitive then key else pyLower key
  iniGet sect key

/-- The field loop of `IniFileSource.__call__` (sources.py lines
282-294): `if value := parser.get(section, key, raw=True,
fallback=None): result[field.alias] = value` — only a truthy (present
and non-empty) value is written. -/
def iniStep (case_sensitive : Bool) (defaultSection : String)
    (iniGet : String → String → Option String) (result : Dict)
    (f : FieldSpec) : Dict :=
  match iniResolve case_sensitive defaultSection iniGet f with
  | some v => if v = "" then result else dictSet result f.aliasName (.vStr v)
  | none => result

/-- The whole field loop of `IniFileSource.__call__`. -/
def iniCall (case_sensitive : Bool) (defaultSection : String)
    (iniGet : String → String → Option String) (fields : List FieldSpec) :
    Dict :=
  fields.foldl (iniStep case_sensitive defaultSection iniGet) []

/-! ## Source registry (registry.py) -/

/-- A settings-source factory as stored in the registry: one of the
three built-ins, a user-registered factory identified by name, or a
`functools.partial` of a factory with keyword options bound. -/
inductive PFactory where
  | env
  | ini
  | secrets
  | custom (name : String)
  | bound (f : PFactory) (options : List (String × String))

/-- The process-wide registry state: `__sources__` (the base source
table) and `__registry__` (environment name → source name → factory). -/
structure RegState where
  sources : List (String × PFactory)
  registry : List (String × List (String × PFactory))

/-- The initial module state of registry.py (lines 10-11):
`__sources__ = {"env": EnvSource, "ini": IniFileSource, "secrets":
SecretsSource}` and `__registry__ = {"default": __sources__.copy()}`. -/
def initialRegState : RegState :=
  { sources := [("env", .env), ("ini", .ini), ("secrets", .secrets)]
    registry :=
      [("default", [("env", .env), ("ini", .ini), ("secrets", .secrets)])] }

/-- The failures of `registry.configure`: the explicit `ValueError` for
an unregistered name (line 40) and the `KeyError` Python raises at
`__registry__[env]` when no table exists for `env` (line 42). -/
inductive RegError where
  | unknownSource (name : String)
  | keyError (env : String)

/-- `registry.configure(name, env, **options)` (registry.py lines
38-43): raise for an unregistered name, then execute
`__registry__[env][name] = partial(__sources__[name], **options)` —
which looks `env` up in `__registry__` (raising `KeyError` when absent)
and rebinds `name` in that table. -/
def configure (st : RegState) (name env : String)
    (options : List (String × String)) : Except RegError RegState :=
  match dictGet st.sources name with
  | none => .error (.unknownSource name)
  | some f =>
      match dictGet st.registry env with
      | none => .error (.keyError env)
      | some tbl =>
          .ok { st with
                registry := dictSet st.registry env
                  (dictSet tbl name (.bound f options)) }

/-! ## DelimitedList (validators.py) -/

/-- The membership filter of the first-occurrence scan underlying
`collections.Counter` key order: characters already seen are skipped. -/
def dedupFirstAux (seen : List Char) : List Char → List Char
  | [] => []
  | c :: cs =>
      if c ∈ seen then dedupFirstAux seen cs
      else c :: dedupFirstAux (c :: seen) cs

/-- `collections.Counter(v)` for a string `v`: the distinct characters
in first-occurrence order. -/
def dedupFirst (cs : List Char) : List Char :=
  dedupFirstAux [] cs

/-- `collections.Counter(v).items()`: each distinct character of the
string paired with its number of occurrences, keys in first-occurrence
(insertion) order. -/
def counterItems (cs : List Char) : List (Char × Nat) :=
  (dedupFirst cs).map (fun c => (c, cs.count c))

/-- Insert an element into a count-descending list, after every element
with a strictly greater count (the stable position `sorted(...,
reverse=True)` gives it). -/
def insertDesc (x : Char × Nat) : List (Char × Nat) → List (Char × Nat)
  | [] => [x]
  | y :: ys => if x.2 < y.2 then y :: insertDesc x ys else x :: y :: ys

/-- Python's stable descending sort by count, as used by
`Counter.most_common()`. -/
def sortCountDesc : List (Char × Nat) → List (Char × Nat)
  | [] => []
  | x :: xs => insertDesc x (sortCountDesc xs)

/-- `Counter(v).most_common()`: the character counts of `v` sorted by
descending count, ties keeping first-occurrence order. -/
def mostCommon (s : String) : List (Char × Nat) :=
  sortCountDesc (counterItems s.data)

/-- `next((k for k, _ in Counter(v).most_common() if k in order),
dflt)`: the first character of `most_common` that is a candidate
delimiter, or the default. -/
def detectSep (s : String) (order : List Char) (dflt : Char) : Char :=
  match (mostCommon s).find? (fun p => order.contains p.1) with
  | some p => p.1
  | none => dflt

/-- The candidate delimiters of `DelimitedList.validate`, in priority
order: `[",", "\n", ";", "&"]`. -/
def delimitedOrder : List Char := [',', '\n', ';', '&']

/-- A `DelimitedList` value: the parsed elements and the delimiter the
instance carries (`_delimiter`, defaulting to `","`). -/
structure DelimitedList where
  list : List String
  delimiter : String

/-- `DelimitedList.validate` on a string input (validators.py lines
59-67): detect the separator by counting candidate occurrences, return
the empty instance for a falsy string, otherwise split on the detected
separator and strip whitespace from every element. -/
def DelimitedList.validate (v : String) : DelimitedList :=
  let separator := detectSep v delimitedOrder ','
  if v = "" then ⟨[], ","⟩
  else ⟨(splitList v separator.toString).map pyStrip, separator.toString⟩

/-- `DelimitedList.__str__` (validators.py lines 90-91):
`self._delimiter.join(str(x) for x in self._list)`. -/
def DelimitedList.render (l : DelimitedList) : String :=
  String.intercalate l.delimiter l.list

/-- The value written at key `k` by one `deep_update` entry `(k, v)`:
recursive merge when both sides are dicts, replacement otherwise. -/
def mergeVal (m : Dict) (k : String) : Val → Val
  | Val.vObj o2 =>
      match dictGet m k with
      | some (Val.vObj o1) => Val.vObj (deepUpdate2 o1 o2)
      | _ => Val.vObj o2
  | v => v

/-! ## Specification-side characterization helpers

These definitions are not embeddings of Python code; they only serve to
state the theorems below (which value a fold ends up with, where a
character first occurs, and so on). -/

/-- The last name in `names` satisfying `pred` (the candidate whose
assignment survives a loop without a break). -/
def lastFile (pred : String → Bool) : List String → Option String
  | [] => none
  | n :: rest =>
      match lastFile pred rest with
      | some c => some c
      | none => if pred n then some n else none

/-- The value `SecretsSource.__call__` stores for candidate file `n` of
field `f`: the stripped file content, JSON-decoded when the field is
complex (`none` when that decode fails, the case the loop turns into a
`SettingsError`). -/
def secretValue (fs : Fs) (sp : String) (jl : String → Option Val)
    (f : FieldSpec) (n : String) : Option Val :=
  if f.is_complex then jl (pyStrip (fs.readText (sp ++ "/" ++ n)))
  else some (Val.vStr (pyStrip (fs.readText (sp ++ "/" ++ n))))

/-- The key under which `matchStep` files a match with capture groups
`groups`: the first group when there is exactly one group, else the
second, lower-cased; `none` when that group is missing or did not
participate in the match. -/
def groupKey (groups : List (Option String)) : Option String :=
  match (if groups.length == 1 then groups.get? 0 else groups.get? 1) with
  | some (some g) => some (pyLower g)
  | _ => none

/-- Whether the environment entry `kv` matches `pat` and files under
key `κ`; if so, its value. -/
def matchesKey (pat : String → Option (List (Option String))) (κ : String)
    (kv : String × Option String) : Option (Option String) :=
  match pat kv.1 with
  | some gs => if groupKey gs = some κ then some kv.2 else none
  | none => none

/-- The value of the last entry of `evs` that matches `pat` and files
under key `κ` (later matches overwrite earlier ones). -/
def lastMatchValue (pat : String → Option (List (Option String)))
    (κ : String) (evs : EnvVars) : Option (Option String) :=
  evs.foldl (fun acc kv => (matchesKey pat κ kv).or acc) none

/-- The sub-mapping stored under `a`, when it is a dict. -/
def aliasObj (d : Dict) (a : String) : Option Dict :=
  match dictGet d a with
  | some (Val.vObj o) => some o
  | _ => none

/-- The entry at key `κ` of the sub-mapping stored under `a`. -/
def aliasObjGet (d : Dict) (a κ : String) : Option Val :=
  (aliasObj d a).bind (fun o => dictGet o κ)

/-- Lower-case the candidate external names of a field (the effect the
case-insensitive transform has on `_get_source_names`). -/
def lowerFieldCandidates (f : FieldSpec) : FieldSpec :=
  { f with env_names := some ((f.env_names.getD [f.name]).map pyLower) }

/-- The element `Counter.most_common()` followed by
`next((k for k, _ in ... if k in order), ...)` selects: the first
element in scan order whose count no later element strictly exceeds,
restricted to elements satisfying `p`. -/
def findBest (p : Char × Nat → Bool) : List (Char × Nat) → Option (Char × Nat)
  | [] => none
  | x :: xs =>
      match findBest p xs with
      | some f => if x.2 < f.2 then some f else if p x then some x else some f
      | none => if p x then some x else none

/-- The position of the first occurrence of `x` in a character list. -/
def posIn : List Char → Char → Nat
  | [], _ => 0
  | c :: cs, x => if c = x then 0 else posIn cs x + 1

/-! ## Lemmas about Python dict operations -/

theorem dictGet_dictSet_self {α : Type} (d : List (String × α)) (k : String)
    (v : α) : dictGet (dictSet d k v) k = some v := by
  induction d with
  | nil => simp [dictGet, dictSet]
  | cons kv rest ih =>
      by_cases h : kv.1 = k
      · simp [dictGet, dictSet, h]
      · simp [dictGet, dictSet, h, ih]

theorem dictGet_dictSet_ne {α : Type} (d : List (String × α)) {k1 k : String}
    (v : α) (h : k1 ≠ k) : dictGet (dictSet d k1 v) k = dictGet d k := by
  induction d with
  | nil => simp [dictGet, dictSet, h]
  | cons kv rest ih =>
      by_cases h2 : kv.1 = k1
      · simp [dictGet, dictSet, h2, h]
      · simp only [dictSet, h2, if_false]
        by_cases h3 : kv.1 = k
        · simp [dictGet, h3]
        · simp [dictGet, h3, ih]

theorem dictGet_eq_none_of_not_mem {α : Type} {d : List (String × α)}
    {k : String} (h : k ∉ dictKeys d) : dictGet d k = none := by
  induction d with
  | nil => simp [dictGet]
  | cons kv rest ih =>
      simp only [dictKeys, List.map_cons, List.mem_cons, not_or] at h
      have hne : kv.1 ≠ k := fun he => h.1 he.symm
      simp [dictGet, hne, ih (by simpa [dictKeys] using h.2)]

/-! ## Lemmas about deep_update and the merge direction (claim C1) -/

theorem deepUpdate2_cons (m : Dict) (k : String) (v : Val) (rest : Dict) :
    deepUpdate2 m ((k, v) :: rest)
      = deepUpdate2 (dictSet m k (mergeVal m k v)) rest := by
  cases v <;> simp [deepUpdate2, mergeVal]

theorem mergeVal_of_not_obj (m : Dict) (k : String) {v : Val}
    (hv : v.isObj = false) : mergeVal m k v = v := by
  cases v <;> simp_all [mergeVal, Val.isObj]

theorem deepUpdate2_get_of_not_mem (um : Dict) :
    ∀ (m : Dict) (k : String), dictGet um k = none →
      dictGet (deepUpdate2 m um) k = dictGet m k := by
  induction um with
  | nil => intro m k _; simp [deepUpdate2]
  | cons kv rest ih =>
      intro m k h
      obtain ⟨k1, v1⟩ := kv
      simp only [dictGet] at h
      by_cases he : k1 = k
      · simp [he] at h
      · simp only [he, if_false] at h
        rw [deepUpdate2_cons, ih _ _ h, dictGet_dictSet_ne _ _ he]

theorem deepUpdate2_get_of_nonobj (um : Dict) :
    ∀ (m : Dict) (k : String) (v : Val), (dictKeys um).Nodup →
      dictGet um k = some v → v.isObj = false →
      dictGet (deepUpdate2 m um) k = some v := by
  induction um with
  | nil => intro m k v _ h _; simp [dictGet] at h
  | cons kv rest ih =>
      intro m k v hnd h hv
      obtain ⟨k1, v1⟩ := kv
      simp only [dictKeys, List.map_cons, List.nodup_cons] at hnd
      simp only [dictGet] at h
      by_cases he : k1 = k
      · simp only [he, if_true] at h
        cases h
        rw [deepUpdate2_cons]
        have hnm : k ∉ dictKeys rest := by
          simpa [he, dictKeys] using hnd.1
        rw [deepUpdate2_get_of_not_mem rest _ _ (dictGet_eq_none_of_not_mem hnm)]
        rw [he, dictGet_dictSet_self, mergeVal_of_not_obj _ _ hv]
      · simp only [he, if_false] at h
        rw [deepUpdate2_cons]
        exact ih _ _ _ (by simpa [dictKeys] using hnd.2) h hv

theorem deep_update_append_single (l : List Dict) (m : Dict) (h : l ≠ []) :
    deep_update (l ++ [m]) = deepUpdate2 (deep_update l) m := by
  cases l with
  | nil => exact absurd rfl h
  | cons x xs => simp [deep_update, List.foldl_append]

theorem deep_update_reverse_firstGet (ms : List Dict) (key : String) (v : Val)
    (hnd : ∀ m ∈ ms, (dictKeys m).Nodup)
    (hfirst : firstGet ms key = some v) (hv : v.isObj = false) :
    dictGet (deep_update ms.reverse) key = some v := by
  induction ms with
  | nil => simp [firstGet] at hfirst
  | cons m rest ih =>
      cases rest with
      | nil =>
          simp only [firstGet] at hfirst
          cases hm : dictGet m key with
          | none => simp [hm, firstGet] at hfirst
          | some v1 =>
              simp only [hm] at hfirst
              cases hfirst
              simpa [deep_update] using hm
      | cons r rs =>
          have hrev : (m :: r :: rs).reverse = (r :: rs).reverse ++ [m] := by
            simp
          rw [hrev, deep_update_append_single _ _ (by simp)]
          simp only [firstGet] at hfirst
          cases hm : dictGet m key with
          | some v1 =>
              simp only [hm] at hfirst
              cases hfirst
              exact deepUpdate2_get_of_nonobj m _ _ _ (hnd m (by simp)) hm hv
          | none =>
              simp only [hm] at hfirst
              rw [deepUpdate2_get_of_not_mem m _ _ hm]
              exact ih (fun x hx => hnd x (List.mem_cons_of_mem _ hx)) hfirst

/-- Claim C1: the resolution pipeline deep-merges the collected
per-source mappings in reverse of invocation order, so that for any key
the source earliest in the list (`InitSource` first, then the configured
sources in declaration order) that holds the key supplies its (non-dict)
value in the merged mapping. -/
theorem c1_earlier_source_wins (initValues : Dict) (sourceResults : List Dict)
    (key : String) (v : Val)
    (hnd : ∀ m ∈ initValues :: sourceResults, (dictKeys m).Nodup)
    (hfirst : firstGet (initValues :: sourceResults) key = some v)
    (hv : v.isObj = false) :
    dictGet (build_values initValues sourceResults) key = some v :=
  deep_update_reverse_firstGet (initValues :: sourceResults) key v hnd hfirst hv

/-- Witness for C1: sources `[A, B]` with `A` supplying `x = 1` and `B`
supplying `x = 2` (and no caller-supplied values) resolve to `x = 1`. -/
theorem c1_earlier_source_wins_witness :
    dictGet (build_values [] [[("x", Val.vInt 1)], [("x", Val.vInt 2)]]) "x"
      = some (Val.vInt 1) :=
  c1_earlier_source_wins [] [[("x", Val.vInt 1)], [("x", Val.vInt 2)]] "x"
    (Val.vInt 1) (by intro m hm; fin_cases hm <;> simp [dictKeys]) rfl rfl

/-- Claim C2 is contradicted by the code: with no nested delimiter
configured, `explode_env_vars` normalises the delimiter to the empty
string and then executes `env_name.split("")`, which Python rejects
with `ValueError: empty separator` for every environment variable whose
name starts with a candidate name — so delimiter-exploded assembly is
not total and does not behave as a simple prefix match.  Here the
candidate is `db`, the environment holds `dbx=1`, and both the helper
and the whole `EnvSource` call raise instead of returning a
sub-mapping. -/
theorem c2_empty_delimiter_explode_raises :
    explode_env_vars [("dbx", some "1")] ["db"] none
        = .error "ValueError: empty separator"
      ∧ envSourceCall {} (fun _ => none) [("dbx", "1")]
          [{ name := "db", aliasName := "db", is_complex := true }]
        = .error "ValueError: empty separator" :=
  ⟨rfl, rfl⟩

/-- Counterexample to claim C3: for a union-typed complex field `x`
whose direct value `notjson` fails JSON decoding, the code assigns the
raw string verbatim (`d[field.alias] = env_val` on the non-dict
branch); the entry does not come from delimiter-exploded assembly, and
the exploded sub-mapping built from `x__h=5` is discarded, not the raw
string. -/
theorem c3_raw_string_assigned_counterexample :
    envSourceCall { env_nested_delimiter := some "__" } (fun _ => none)
        [("x", "notjson"), ("x__h", "5")]
        [{ name := "x", aliasName := "x", union_with_complex_alt := true }]
      = .ok [("x", Val.vStr "notjson")] :=
  rfl

/-- Counterexample to claim C4: field `x` has candidates `a` then `b`,
both existing as regular files under the secrets directory with
contents `1` and `2`; the candidate loop has no break, so the later
candidate overwrites the earlier and the field resolves to `2`, not the
first existing candidate's `1`. -/
theorem c4_first_candidate_counterexample :
    secretsCall (some "s") true
        { expanduser := fun p => p
          pathExists := fun p => p == "s" || p == "s/a" || p == "s/b"
          isDir := fun p => p == "s"
          isFile := fun p => p == "s/a" || p == "s/b"
          readText := fun p => if p == "s/a" then "1" else "2" }
        (fun _ => none)
        [{ name := "x", aliasName := "x", env_names := some ["a", "b"] }]
      = .ok ([("x", Val.vStr "2")], []) ∧ Val.vStr "2" ≠ Val.vStr "1" :=
  ⟨rfl, by simp⟩

/-- Counterexample to claim C5: a `matchfull` pattern with three capture
groups (`A`, `B`, `C` on the matching name `m_a_b_c`) keys the entry by
the second group lower-cased (`b`), not by the last capture group
(`c`). -/
theorem c5_last_group_counterexample :
    envSourceCall {} (fun _ => none) [("m_a_b_c", "v")]
        [{ name := "t", aliasName := "t",
           matchfull := some (fun k =>
             if k == "m_a_b_c" then some [some "A", some "B", some "C"]
             else none) }]
      = .ok [("t", Val.vObj [("b", Val.vStr "v")])]
    ∧ dictGet [("b", Val.vStr "v")] "c" = none :=
  ⟨rfl, rfl⟩

/-- Counterexample to claim C6: `EnvSource.__init__` defaults
`case_sensitive` to `True`, so a source constructed without an explicit
case-sensitivity option does not lower-case names — environment
variable `X=1` does not resolve field `x` — whereas an explicitly
case-insensitive source does. -/
theorem c6_default_case_counterexample :
    ({} : EnvSourceCfg).case_sensitive = true
    ∧ envSourceCall {} (fun _ => none) [("X", "1")]
        [{ name := "x", aliasName := "x" }] = .ok []
    ∧ envSourceCall { case_sensitive := false } (fun _ => none) [("X", "1")]
        [{ name := "x", aliasName := "x" }] = .ok [("x", Val.vStr "1")] :=
  ⟨rfl, rfl, rfl⟩

/-- Claim C7 is contradicted by the code: `configure` executes
`__registry__[env][name] = ...` without ever creating a table for
`env`, and the module only ever seeds `__registry__` with `"default"`,
so configuring a registered source for any other environment raises
`KeyError` instead of succeeding.  The unknown-name check and the
rebinding for the `"default"` environment behave as claimed. -/
theorem c7_configure_keyerror :
    configure initialRegState "env" "prod" [] = .error (.keyError "prod")
    ∧ configure initialRegState "nope" "default" []
        = .error (.unknownSource "nope")
    ∧ configure initialRegState "env" "default" [("env_file", ".env")]
        = .ok
            { sources := [("env", .env), ("ini", .ini), ("secrets", .secrets)]
              registry :=
                [("default",
                  [("env", .bound .env [("env_file", ".env")]),
                   ("ini", .ini), ("secrets", .secrets)])] } :=
  ⟨rfl, rfl, rfl⟩

/-- Counterexample to claim C8: in `a;b,c` the candidates `;` and `,`
each occur once; `Counter.most_common()` breaks the tie by insertion
(first-occurrence) order, not by the fixed priority list, so the
detected delimiter is `;` (and the split is `["a", "b,c"]`), while the
claim's tie-break predicts `,`. -/
theorem c8_tiebreak_counterexample :
    DelimitedList.validate "a;b,c" = { list := ["a", "b,c"], delimiter := ";" }
    ∧ (";" : String) ≠ "," :=
  ⟨rfl, by decide⟩

/-! ## IniFileSource: truthiness decides inclusion (claim C10) -/

theorem iniFold_get_eq_of_allEmpty (cs : Bool) (ds : String)
    (iniGet : String → String → Option String) (a : String) :
    ∀ (fields : List FieldSpec) (acc : Dict),
      (∀ f ∈ fields, f.aliasName = a →
        iniResolve cs ds iniGet f = none ∨ iniResolve cs ds iniGet f = some "") →
      dictGet (fields.foldl (iniStep cs ds iniGet) acc) a = dictGet acc a := by
  intro fields
  induction fields with
  | nil => intro acc _; rfl
  | cons f rest ih =>
      intro acc h
      have hstep : dictGet (iniStep cs ds iniGet acc f) a = dictGet acc a := by
        unfold iniStep
        cases hr : iniResolve cs ds iniGet f with
        | none => rfl
        | some v =>
            by_cases hv : v = ""
            · simp [hv]
            · have hne : f.aliasName ≠ a := by
                intro he
                rcases h f (List.mem_cons_self _ _) he with h1 | h1 <;>
                  rw [hr] at h1 <;> simp [hv] at h1
              simp only [hv, if_false]
              exact dictGet_dictSet_ne _ _ hne
      rw [List.foldl_cons, ih _ (fun g hg ha => h g (List.mem_cons_of_mem _ hg) ha),
        hstep]

theorem dictGet_dictSet_isSome {α : Type} (d : List (String × α))
    (k a : String) (v : α) (h : (dictGet d a).isSome = true) :
    (dictGet (dictSet d k v) a).isSome = true := by
  by_cases he : k = a
  · subst he; rw [dictGet_dictSet_self]; rfl
  · rw [dictGet_dictSet_ne _ _ he]; exact h

theorem iniFold_isSome_mono (cs : Bool) (ds : String)
    (iniGet : String → String → Option String) (a : String) :
    ∀ (fields : List FieldSpec) (acc : Dict),
      (dictGet acc a).isSome = true →
      (dictGet (fields.foldl (iniStep cs ds iniGet) acc) a).isSome = true := by
  intro fields
  induction fields with
  | nil => intro acc h; exact h
  | cons f rest ih =>
      intro acc h
      rw [List.foldl_cons]
      refine ih _ ?_
      unfold iniStep
      cases iniResolve cs ds iniGet f with
      | none => exact h
      | some v =>
          by_cases hv : v = ""
          · simpa [hv] using h
          · simp only [hv, if_false]
            exact dictGet_dictSet_isSome _ _ _ _ h

theorem iniFold_isSome_of_mem (cs : Bool) (ds : String)
    (iniGet : String → String → Option String) :
    ∀ (fields : List FieldSpec) (acc : Dict) (f : FieldSpec) (v : String),
      f ∈ fields → iniResolve cs ds iniGet f = some v → v ≠ "" →
      (dictGet (fields.foldl (iniStep cs ds iniGet) acc) f.aliasName).isSome
        = true := by
  intro fields
  induction fields with
  | nil => intro acc f v hf; exact absurd hf (List.not_mem_nil _)
  | cons g rest ih =>
      intro acc f v hf hr hv
      rw [List.foldl_cons]
      rcases List.mem_cons.mp hf with he | hmem
      · subst he
        refine iniFold_isSome_mono _ _ _ _ _ _ ?_
        unfold iniStep
        rw [hr]
        simp only [hv, if_false]
        rw [dictGet_dictSet_self]
        rfl
      · exact ih _ _ _ hmem hr hv

/-- Claim C10: an INI value that resolves to the empty string is
omitted from the returned mapping — the value's truthiness, not its
presence, decides inclusion — while a non-empty resolved value is
included under the field's alias. -/
theorem c10_ini_empty_value_omitted :
    (∀ (cs : Bool) (ds : String) (iniGet : String → String → Option String)
        (fields : List FieldSpec) (a : String),
      (∀ f ∈ fields, f.aliasName = a →
        iniResolve cs ds iniGet f = none ∨ iniResolve cs ds iniGet f = some "") →
      dictGet (iniCall cs ds iniGet fields) a = none)
    ∧ (∀ (cs : Bool) (ds : String) (iniGet : String → String → Option String)
        (fields : List FieldSpec) (f : FieldSpec) (v : String),
      f ∈ fields → iniResolve cs ds iniGet f = some v → v ≠ "" →
      (dictGet (iniCall cs ds iniGet fields) f.aliasName).isSome = true) := by
  constructor
  · intro cs ds iniGet fields a h
    unfold iniCall
    rw [iniFold_get_eq_of_allEmpty cs ds iniGet a fields [] h]
    rfl
  · intro cs ds iniGet fields f v hf hr hv
    exact iniFold_isSome_of_mem cs ds iniGet fields [] f v hf hr hv

/-- Witness for C10: with the parsed INI document mapping
`(main, x) ↦ ""` and `(main, y) ↦ "1"`, the field `x` is omitted from
the result while `y` is present. -/
theorem c10_ini_empty_value_omitted_witness :
    dictGet
        (iniCall false "main"
          (fun s k =>
            if s == "main" && k == "x" then some ""
            else if s == "main" && k == "y" then some "1" else none)
          [{ name := "x", aliasName := "x" }, { name := "y", aliasName := "y" }])
        "x" = none
    ∧ (dictGet
        (iniCall false "main"
          (fun s k =>
            if s == "main" && k == "x" then some ""
            else if s == "main" && k == "y" then some "1" else none)
          [{ name := "x", aliasName := "x" }, { name := "y", aliasName := "y" }])
        "y").isSome = true :=
  ⟨c10_ini_empty_value_omitted.1 false "main" _ _ "x"
      (by
        intro f hf ha
        fin_cases hf
        · right; rfl
        · simp at ha),
    c10_ini_empty_value_omitted.2 false "main" _ _
      { name := "y", aliasName := "y" } "1" (by simp) rfl (by decide)⟩

/-! ## SecretsSource: directory handling (claim C9) -/

theorem secretFold_error_is_jsonDecode (fs : Fs) (sp : String)
    (jl : String → Option Val) (f : FieldSpec) :
    ∀ (names : List String) (acc : Dict × List String) (e : SourceErr),
      names.foldlM (secretStep fs sp jl f) acc = .error e →
      ∃ n, e = .jsonDecode n := by
  intro names
  induction names with
  | nil => intro acc e h; simp [List.foldlM, pure, Except.pure] at h
  | cons n rest ih =>
      intro acc e h
      rw [List.foldlM_cons] at h
      cases hs : secretStep fs sp jl f acc n with
      | error e1 =>
          rw [hs] at h
          simp only [Bind.bind, Except.bind] at h
          cases h
          unfold secretStep at hs
          by_cases hf : fs.isFile (sp ++ "/" ++ n)
          · simp only [hf, if_true] at hs
            by_cases hc : f.is_complex
            · simp only [hc, if_true] at hs
              cases hj : jl (pyStrip (fs.readText (sp ++ "/" ++ n))) with
              | none => rw [hj] at hs; cases hs; exact ⟨n, rfl⟩
              | some v => rw [hj] at hs; cases hs
            · simp [hc] at hs
          · by_cases hp : fs.pathExists (sp ++ "/" ++ n) <;> simp [hf, hp] at hs
      | ok acc1 =>
          rw [hs] at h
          simp only [Bind.bind, Except.bind] at h
          exact ih acc1 e h

theorem secretsLoop_error_is_jsonDecode (fs : Fs) (sp : String)
    (cs : Bool) (jl : String → Option Val) :
    ∀ (fields : List FieldSpec) (acc : Dict × List String) (e : SourceErr),
      fields.foldlM (secretsProcessField fs sp cs jl) acc = .error e →
      ∃ n, e = .jsonDecode n := by
  intro fields
  induction fields with
  | nil => intro acc e h; simp [List.foldlM, pure, Except.pure] at h
  | cons f rest ih =>
      intro acc e h
      rw [List.foldlM_cons] at h
      cases hs : secretsProcessField fs sp cs jl acc f with
      | error e1 =>
          rw [hs] at h
          simp only [Bind.bind, Except.bind] at h
          injection h with he
          exact he ▸ secretFold_error_is_jsonDecode fs sp jl f _ acc e1 hs
      | ok acc1 =>
          rw [hs] at h
          simp only [Bind.bind, Except.bind] at h
          exact ih acc1 e h

/-- Claim C9: `SecretsSource` returns an empty mapping without error
when no directory is configured; returns an empty mapping plus a
non-fatal warning when the configured path does not exist; and raises
the not-a-directory error exactly when the path exists but is not a
directory (the only other error the source can raise is the JSON-decode
failure of a secret file's content). -/
theorem c9_secrets_directory_handling :
    (∀ (cs : Bool) (fs : Fs) (jl : String → Option Val)
        (fields : List FieldSpec),
      secretsCall none cs fs jl fields = .ok ([], []))
    ∧ (∀ (dir : String) (cs : Bool) (fs : Fs) (jl : String → Option Val)
        (fields : List FieldSpec),
      fs.pathExists (fs.expanduser dir) = false →
      secretsCall (some dir) cs fs jl fields
        = .ok ([], [warnMissingDir (fs.expanduser dir)]))
    ∧ (∀ (dir : String) (cs : Bool) (fs : Fs) (jl : String → Option Val)
        (fields : List FieldSpec),
      (∃ p, secretsCall (some dir) cs fs jl fields
          = .error (SourceErr.notADirectory p))
      ↔ fs.pathExists (fs.expanduser dir) = true
          ∧ fs.isDir (fs.expanduser dir) = false) := by
  refine ⟨fun cs fs jl fields => rfl, ?_, ?_⟩
  · intro dir cs fs jl fields h
    simp [secretsCall, h]
  · intro dir cs fs jl fields
    constructor
    · rintro ⟨p, hp⟩
      by_cases hex : fs.pathExists (fs.expanduser dir)
      · by_cases hdir : fs.isDir (fs.expanduser dir)
        · simp [secretsCall, hex, hdir] at hp
          obtain ⟨n, hn⟩ :=
            secretsLoop_error_is_jsonDecode fs (fs.expanduser dir) cs jl
              fields ([], []) _ hp
          cases hn
        · exact ⟨hex, by simpa using hdir⟩
      · simp [secretsCall, hex] at hp
    · rintro ⟨h1, h2⟩
      refine ⟨fs.expanduser dir, ?_⟩
      simp [secretsCall, h1, h2]

/-- Witness for C9: a non-existent secrets directory produces the empty
mapping plus a warning, and a path that exists but is not a directory
produces the not-a-directory error. -/
theorem c9_secrets_directory_handling_witness :
    secretsCall (some "s") false
        { expanduser := fun p => p, pathExists := fun _ => false,
          isDir := fun _ => false, isFile := fun _ => false,
          readText := fun _ => "" } (fun _ => none) []
      = .ok ([], [warnMissingDir "s"])
    ∧ (∃ p, secretsCall (some "s") false
        { expanduser := fun p => p, pathExists := fun _ => true,
          isDir := fun _ => false, isFile := fun _ => false,
          readText := fun _ => "" } (fun _ => none) []
        = .error (SourceErr.notADirectory p)) :=
  ⟨c9_secrets_directory_handling.2.1 "s" false _ _ _ rfl,
    (c9_secrets_directory_handling.2.2 "s" false _ _ _).mpr ⟨rfl, rfl⟩⟩

/-! ## EnvSource tolerated decode failure keeps the raw string (claim C3,
amended) -/

/-- Amended claim C3: for a union-typed complex field whose directly
found environment value fails JSON decoding, the failure is tolerated
but the raw string is then assigned verbatim as the field's value (the
non-dict branch of the decode result); the entry does not fall through
to delimiter-exploded assembly. -/
theorem c3_amended_raw_string_assigned
    (delim pre : Option String) (jl : String → Option Val)
    (environ : List (String × String)) (f : FieldSpec) (s : String)
    (hmf : f.matchfull = none)
    (hcplx : f.is_complex = false) (hunion : f.union_with_complex_alt = true)
    (hfound : envLookup (pyDict (environ.map (fun kv => (kv.1, some kv.2))))
        (applyEnvPre pre (get_source_names f true)) = some s)
    (hfail : jl s = none) :
    envSourceCall { env_nested_delimiter := delim, envPre := pre } jl environ
        [f]
      = .ok [(f.aliasName, Val.vStr s)] := by
  unfold envSourceCall
  rw [List.foldlM_cons]
  unfold envProcessField
  rw [hmf]
  simp only [hfound, field_is_complex, hcplx, hunion, hfail, Bool.false_eq_true,
    if_false, if_true]
  rfl

/-- Witness for the amended C3: field `x` of union type with a complex
alternative, environment `x=notjson` with delimiter `__`, decoder
failing on `notjson` — the result maps `x` to the raw string. -/
theorem c3_amended_raw_string_assigned_witness :
    envSourceCall { env_nested_delimiter := some "__", envPre := none }
        (fun _ => none) [("x", "notjson")]
        [{ name := "x", aliasName := "x", union_with_complex_alt := true }]
      = .ok [("x", Val.vStr "notjson")] :=
  c3_amended_raw_string_assigned (some "__") none (fun _ => none)
    [("x", "notjson")]
    { name := "x", aliasName := "x", union_with_complex_alt := true }
    "notjson" rfl rfl rfl rfl rfl

/-! ## SecretsSource candidate order (claim C4, amended) -/

theorem secretFold_lastFile (fs : Fs) (sp : String)
    (jl : String → Option Val) (f : FieldSpec) :
    ∀ (names : List String) (acc : Dict × List String),
      (∀ n ∈ names, fs.isFile (sp ++ "/" ++ n) = true →
        (secretValue fs sp jl f n).isSome = true) →
      ∃ r, names.foldlM (secretStep fs sp jl f) acc = .ok r ∧
        dictGet r.1 f.aliasName =
          (match lastFile (fun n => fs.isFile (sp ++ "/" ++ n)) names with
           | some c => secretValue fs sp jl f c
           | none => dictGet acc.1 f.aliasName) := by
  intro names
  induction names with
  | nil => intro acc _; exact ⟨acc, rfl, rfl⟩
  | cons n rest ih =>
      intro acc hok
      by_cases hf : fs.isFile (sp ++ "/" ++ n)
      · obtain ⟨v, hv⟩ := Option.isSome_iff_exists.mp
          (hok n (List.mem_cons_self _ _) hf)
        have hstep : secretStep fs sp jl f acc n
            = .ok (dictSet acc.1 f.aliasName v, acc.2) := by
          unfold secretStep
          by_cases hc : f.is_complex
          · have hjl : jl (pyStrip (fs.readText (sp ++ "/" ++ n))) = some v := by
              unfold secretValue at hv
              simpa [hc] using hv
            simp [hf, hc, hjl]
          · have hvs : Val.vStr (pyStrip (fs.readText (sp ++ "/" ++ n))) = v := by
              unfold secretValue at hv
              simpa [hc] using hv
            simp [hf, hc, hvs]
        obtain ⟨r, hr, hg⟩ :=
          ih (dictSet acc.1 f.aliasName v, acc.2)
            (fun x hx hfx => hok x (List.mem_cons_of_mem _ hx) hfx)
        refine ⟨r, ?_, ?_⟩
        · rw [List.foldlM_cons, hstep]
          simpa [Bind.bind, Except.bind] using hr
        · rw [hg]
          cases hl : lastFile (fun n => fs.isFile (sp ++ "/" ++ n)) rest with
          | some c => simp [lastFile, hl]
          | none => simp [lastFile, hl, hf, dictGet_dictSet_self, hv]
      · have hstep : ∃ w, secretStep fs sp jl f acc n = .ok (acc.1, w) := by
          unfold secretStep
          by_cases hp : fs.pathExists (sp ++ "/" ++ n)
          · exact ⟨acc.2 ++ [warnSkipSecret (sp ++ "/" ++ n)], by simp [hf, hp]⟩
          · exact ⟨acc.2, by simp [hf, hp]⟩
        obtain ⟨w, hw⟩ := hstep
        obtain ⟨r, hr, hg⟩ :=
          ih (acc.1, w) (fun x hx hfx => hok x (List.mem_cons_of_mem _ hx) hfx)
        refine ⟨r, ?_, ?_⟩
        · rw [List.foldlM_cons, hw]
          simpa [Bind.bind, Except.bind] using hr
        · rw [hg]
          cases hl : lastFile (fun n => fs.isFile (sp ++ "/" ++ n)) rest with
          | some c => simp [lastFile, hl]
          | none => simp [lastFile, hl, hf]

/-- Amended claim C4: for every field (simple or complex), when more
than one candidate external name exists as a regular file under the
secrets directory, the candidate loop (which has no break) assigns the
field's value from the LAST existing candidate in declaration order —
each later existing candidate overwrites the previous assignment.  The
stored value is the candidate's stripped file content, JSON-decoded
when the field is complex (`secretValue`); the hypothesis that every
existing candidate's content decodes reflects that a decode failure on
any earlier candidate aborts the loop with an error instead. -/
theorem c4_amended_last_candidate_wins
    (dir : String) (cs : Bool) (fs : Fs) (jl : String → Option Val)
    (f : FieldSpec) (c : String)
    (hex : fs.pathExists (fs.expanduser dir) = true)
    (hdir : fs.isDir (fs.expanduser dir) = true)
    (hok : ∀ n ∈ get_source_names f cs,
      fs.isFile (fs.expanduser dir ++ "/" ++ n) = true →
      (secretValue fs (fs.expanduser dir) jl f n).isSome = true)
    (hlast : lastFile (fun n => fs.isFile (fs.expanduser dir ++ "/" ++ n))
        (get_source_names f cs) = some c) :
    ∃ r, secretsCall (some dir) cs fs jl [f] = .ok r ∧
      dictGet r.1 f.aliasName = secretValue fs (fs.expanduser dir) jl f c := by
  obtain ⟨r, hr, hg⟩ :=
    secretFold_lastFile fs (fs.expanduser dir) jl f
      (get_source_names f cs) ([], []) hok
  refine ⟨r, ?_, ?_⟩
  · simp only [secretsCall, hex, hdir]
    rw [List.foldlM_cons]
    have : secretsProcessField fs (fs.expanduser dir) cs jl ([], []) f = .ok r := hr
    rw [this]
    simp [Bind.bind, Except.bind, List.foldlM, pure, Except.pure]
  · rw [hg, hlast]

/-- Witness for the amended C4, exercising both a complex and a simple
field: candidates `a` and `b` both exist as files with contents `1` and
`2`; the complex field resolves to the JSON decode of the last
candidate's content (`2`), and the simple field to the raw string
`2`. -/
theorem c4_amended_last_candidate_wins_witness :
    (∃ r, secretsCall (some "s") true
        { expanduser := fun p => p
          pathExists := fun p => p == "s" || p == "s/a" || p == "s/b"
          isDir := fun p => p == "s"
          isFile := fun p => p == "s/a" || p == "s/b"
          readText := fun p => if p == "s/a" then "1" else "2" }
        (fun s => if s = "1" then some (Val.vInt 1)
          else if s = "2" then some (Val.vInt 2) else none)
        [{ name := "x", aliasName := "x", env_names := some ["a", "b"],
           is_complex := true }]
      = .ok r
    ∧ dictGet r.1 "x" = some (Val.vInt 2))
    ∧ (∃ r, secretsCall (some "s") true
        { expanduser := fun p => p
          pathExists := fun p => p == "s" || p == "s/a" || p == "s/b"
          isDir := fun p => p == "s"
          isFile := fun p => p == "s/a" || p == "s/b"
          readText := fun p => if p == "s/a" then "1" else "2" }
        (fun _ => none)
        [{ name := "x", aliasName := "x", env_names := some ["a", "b"] }]
      = .ok r
    ∧ dictGet r.1 "x" = some (Val.vStr "2")) := by
  constructor
  · obtain ⟨r, h1, h2⟩ := c4_amended_last_candidate_wins "s" true
      { expanduser := fun p => p
        pathExists := fun p => p == "s" || p == "s/a" || p == "s/b"
        isDir := fun p => p == "s"
        isFile := fun p => p == "s/a" || p == "s/b"
        readText := fun p => if p == "s/a" then "1" else "2" }
      (fun s => if s = "1" then some (Val.vInt 1)
        else if s = "2" then some (Val.vInt 2) else none)
      { name := "x", aliasName := "x", env_names := some ["a", "b"],
        is_complex := true }
      "b" rfl rfl (by decide) rfl
    exact ⟨r, h1, h2.trans rfl⟩
  · obtain ⟨r, h1, h2⟩ := c4_amended_last_candidate_wins "s" true
      { expanduser := fun p => p
        pathExists := fun p => p == "s" || p == "s/a" || p == "s/b"
        isDir := fun p => p == "s"
        isFile := fun p => p == "s/a" || p == "s/b"
        readText := fun p => if p == "s/a" then "1" else "2" }
      (fun _ => none)
      { name := "x", aliasName := "x", env_names := some ["a", "b"] }
      "b" rfl rfl (by decide) rfl
    exact ⟨r, h1, h2.trans rfl⟩

/-! ## EnvSource case sensitivity (claim C6, amended) -/

theorem foldlM_map_eq {m : Type → Type} [Monad m] {α β γ : Type}
    (g : α → β) (f : γ → β → m γ) (l : List α) (init : γ) :
    (l.map g).foldlM f init = l.foldlM (fun acc a => f acc (g a)) init := by
  induction l generalizing init with
  | nil => rfl
  | cons a as ih => simp only [List.map_cons, List.foldlM_cons, ih]

theorem get_source_names_lower (f : FieldSpec) :
    get_source_names (lowerFieldCandidates f) true = get_source_names f false := by
  simp [get_source_names, lowerFieldCandidates, xformName]

theorem envProcessField_lower (delim pre : Option String)
    (jl : String → Option Val) (evs : EnvVars) (d : Dict) (f : FieldSpec) :
    envProcessField delim pre jl evs true d (lowerFieldCandidates f)
      = envProcessField delim pre jl evs false d f := by
  unfold envProcessField
  rw [get_source_names_lower]
  rfl

/-- Amended claim C6: `EnvSource` constructed without an explicit
case-sensitivity option is case-SENSITIVE (`case_sensitive=True` is the
constructor default); when constructed case-insensitive (which the
`Settings` pipeline does by default through its config) it lower-cases
environment variable names and candidate field names before matching —
a case-insensitive call coincides with a case-sensitive call on the
lower-cased environment and lower-cased candidates. -/
theorem c6_amended_default_sensitive_insensitive_lowers :
    ({} : EnvSourceCfg).case_sensitive = true
    ∧ ∀ (cfg : EnvSourceCfg) (jl : String → Option Val)
        (environ : List (String × String)) (fields : List FieldSpec),
      envSourceCall { cfg with case_sensitive := false } jl environ fields
        = envSourceCall { cfg with case_sensitive := true } jl
            (environ.map (fun kv => (pyLower kv.1, kv.2)))
            (fields.map lowerFieldCandidates) := by
  refine ⟨rfl, ?_⟩
  intro cfg jl environ fields
  unfold envSourceCall
  simp only [Bool.false_eq_true, if_false, if_true, List.map_map]
  rw [foldlM_map_eq]
  have hevs : (environ.map
        ((fun (kv : String × String) => (kv.1, some kv.2)) ∘
          fun kv => (pyLower kv.1, kv.2)))
      = environ.map (fun kv => (pyLower kv.1, some kv.2)) := by
    simp [Function.comp]
  rw [hevs]
  congr 1
  funext acc f
  exact
    (envProcessField_lower cfg.env_nested_delimiter cfg.envPre jl _ acc f).symm

/-! ## EnvSource matchfull collection (claim C5, amended) -/

theorem foldl_overwrite {α β : Type} (g : β → Option α) :
    ∀ (l : List β) (a : Option α),
      l.foldl (fun acc kv => (g kv).or acc) a
        = (l.foldl (fun acc kv => (g kv).or acc) none).or a := by
  intro l
  induction l with
  | nil => intro a; rfl
  | cons x xs ih =>
      intro a
      cases hg : g x with
      | some v =>
          have h1 : (g x).or a = some v := by rw [hg]; rfl
          have h2 : (g x).or none = some v := by rw [hg]; rfl
          rw [List.foldl_cons, List.foldl_cons, h1, h2, ih (some v)]
          cases xs.foldl (fun acc kv => (g kv).or acc) none <;> rfl
      | none =>
          have h1 : (g x).or a = a := by rw [hg]; rfl
          have h2 : (g x).or none = none := by rw [hg]; rfl
          rw [List.foldl_cons, List.foldl_cons, h1, h2]
          exact ih a

theorem groupKey_eq_some {gs : List (Option String)} {κ : String}
    (h : groupKey gs = some κ) :
    ∃ g, (if gs.length == 1 then gs.get? 0 else gs.get? 1) = some (some g)
      ∧ pyLower g = κ := by
  unfold groupKey at h
  cases hE : (if gs.length == 1 then gs.get? 0 else gs.get? 1) with
  | none => rw [hE] at h; cases h
  | some og =>
      cases og with
      | none => rw [hE] at h; cases h
      | some g =>
          rw [hE] at h
          exact ⟨g, rfl, by injection h⟩

theorem aliasObjGet_dictSet_obj (d : Dict) (a κ : String) (o : Dict) :
    aliasObjGet (dictSet d a (Val.vObj o)) a κ = dictGet o κ := by
  simp [aliasObjGet, aliasObj, dictGet_dictSet_self]

theorem matchfold_characterization
    (pat : String → Option (List (Option String))) (a : String) :
    ∀ (evs : EnvVars) (d : Dict),
      (∀ kv ∈ evs, ∀ gs, pat kv.1 = some gs → (groupKey gs).isSome = true) →
      (dictGet d a = none ∨ ∃ o, dictGet d a = some (Val.vObj o)) →
      ∃ d2, evs.foldlM (matchStep pat a) d = .ok d2 ∧
        ∀ κ : String,
          (match lastMatchValue pat κ evs with
           | some v => aliasObjGet d2 a κ = some (optVal v)
           | none => aliasObjGet d2 a κ = aliasObjGet d a κ) := by
  intro evs
  induction evs with
  | nil =>
      intro d _ _
      exact ⟨d, rfl, fun κ => by simp [lastMatchValue]⟩
  | cons kv rest ih =>
      intro d wf hd
      cases hp : pat kv.1 with
      | none =>
          obtain ⟨d2, h2, hchar⟩ :=
            ih d (fun x hx => wf x (List.mem_cons_of_mem _ hx)) hd
          have hstep : matchStep pat a d kv = .ok d := by
            unfold matchStep; rw [hp]
          refine ⟨d2, ?_, ?_⟩
          · rw [List.foldlM_cons, hstep]
            simpa [Bind.bind, Except.bind] using h2
          · intro κ
            have hlm : lastMatchValue pat κ (kv :: rest)
                = lastMatchValue pat κ rest := by
              unfold lastMatchValue
              simp only [List.foldl_cons, matchesKey, hp, Option.none_or]
            rw [hlm]
            exact hchar κ
      | some gs =>
          obtain ⟨κ0, hκ⟩ := Option.isSome_iff_exists.mp
            (wf kv (List.mem_cons_self _ _) gs hp)
          obtain ⟨g, hE, hg⟩ := groupKey_eq_some hκ
          -- the dict after processing kv, and the stored sub-mapping
          obtain ⟨o0, ho0, hstep⟩ :
              ∃ o0, aliasObjGet d a = dictGet o0 ∧
                matchStep pat a d kv
                  = .ok (dictSet (if (dictGet d a).isSome then d
                        else dictSet d a (Val.vObj [])) a
                      (Val.vObj (dictSet o0 (pyLower g) (optVal kv.2)))) := by
            rcases hd with hd | ⟨o, hd⟩
            · refine ⟨[], ?_, ?_⟩
              · funext κ; simp [aliasObjGet, aliasObj, hd, dictGet]
              · unfold matchStep
                rw [hp]
                simp only [hd, Option.isSome_none, Bool.false_eq_true, if_false,
                  dictGet_dictSet_self, hE]
            · refine ⟨o, ?_, ?_⟩
              · funext κ; simp [aliasObjGet, aliasObj, hd]
              · unfold matchStep
                rw [hp]
                simp only [hd, Option.isSome_some, if_true, hE]
          set d1 : Dict :=
            dictSet (if (dictGet d a).isSome then d else dictSet d a (Val.vObj []))
              a (Val.vObj (dictSet o0 (pyLower g) (optVal kv.2))) with hd1
          obtain ⟨d2, h2, hchar⟩ :=
            ih d1 (fun x hx => wf x (List.mem_cons_of_mem _ hx))
              (Or.inr ⟨_, dictGet_dictSet_self _ _ _⟩)
          have hobj1 : ∀ κ, aliasObjGet d1 a κ
              = dictGet (dictSet o0 (pyLower g) (optVal kv.2)) κ := by
            intro κ
            rw [hd1, aliasObjGet_dictSet_obj]
          refine ⟨d2, ?_, ?_⟩
          · rw [List.foldlM_cons, hstep]
            simpa [Bind.bind, Except.bind] using h2
          · intro κ
            have hinit : (matchesKey pat κ kv).or none
                = if κ0 = κ then some kv.2 else none := by
              simp only [matchesKey, hp, hκ]
              by_cases he : κ0 = κ
              · simp [he]
              · simp [he, Option.some_inj]
            have hlm : lastMatchValue pat κ (kv :: rest)
                = (lastMatchValue pat κ rest).or
                    (if κ0 = κ then some kv.2 else none) := by
              unfold lastMatchValue
              rw [List.foldl_cons, hinit]
              exact foldl_overwrite (matchesKey pat κ) rest
                (if κ0 = κ then some kv.2 else none)
            rw [hlm]
            have hch := hchar κ
            cases hr : lastMatchValue pat κ rest with
            | some v =>
                rw [hr] at hch
                exact hch
            | none =>
                rw [hr] at hch
                rw [Option.none_or]
                by_cases he : κ0 = κ
                · subst he
                  rw [if_pos rfl]
                  show aliasObjGet d2 a κ0 = some (optVal kv.2)
                  rw [hch, hobj1, ← hg, dictGet_dictSet_self]
                · rw [if_neg he]
                  show aliasObjGet d2 a κ = aliasObjGet d a κ
                  rw [hch, hobj1]
                  have hgκ : pyLower g ≠ κ := by rw [hg]; exact he
                  rw [dictGet_dictSet_ne _ _ hgκ, ho0]

/-- Amended claim C5: for a field declaring a match pattern,
`EnvSource` scans all environment variable names, and every name fully
matching the pattern contributes one entry into that field's
sub-mapping keyed by the FIRST capture group when the pattern yields
exactly one group and by the SECOND capture group otherwise,
lower-cased (`groupKey`), with the matched variable's raw value; later
matches overwrite earlier ones on key collision, so each key holds the
last matching variable's value (`lastMatchValue`). -/
theorem c5_amended_match_contributes
    (pat : String → Option (List (Option String)))
    (jl : String → Option Val) (environ : List (String × String))
    (f : FieldSpec) (hmf : f.matchfull = some pat)
    (wf : ∀ kv ∈ pyDict (environ.map (fun kv => (kv.1, some kv.2))), ∀ gs,
      pat kv.1 = some gs → (groupKey gs).isSome = true) :
    ∃ d, envSourceCall {} jl environ [f] = .ok d ∧
      ∀ (κ : String) (v : Option String),
        lastMatchValue pat κ
            (pyDict (environ.map (fun kv => (kv.1, some kv.2)))) = some v →
        aliasObjGet d f.aliasName κ = some (optVal v) := by
  obtain ⟨d2, h2, hchar⟩ := matchfold_characterization pat f.aliasName
    (pyDict (environ.map (fun kv => (kv.1, some kv.2)))) [] wf (Or.inl rfl)
  refine ⟨d2, ?_, ?_⟩
  · unfold envSourceCall
    rw [List.foldlM_cons]
    unfold envProcessField
    rw [hmf]
    simp only [if_true]
    rw [h2]
    rfl
  · intro κ v hv
    have := hchar κ
    rw [hv] at this
    exact this

/-- Witness for the amended C5: pattern matching `p_a` with the single
capture group `A` files the entry under `a` with the variable's value
`v`. -/
theorem c5_amended_match_contributes_witness :
    ∃ d, envSourceCall {} (fun _ => none) [("p_a", "v")]
        [{ name := "t", aliasName := "t",
           matchfull := some (fun k =>
             if k == "p_a" then some [some "A"] else none) }]
      = .ok d
    ∧ aliasObjGet d "t" "a" = some (optVal (some "v")) := by
  obtain ⟨d, hd, hc⟩ := c5_amended_match_contributes
    (fun k => if k == "p_a" then some [some "A"] else none)
    (fun _ => none) [("p_a", "v")]
    { name := "t", aliasName := "t",
      matchfull := some (fun k => if k == "p_a" then some [some "A"] else none) }
    rfl
    (by
      intro kv hkv gs hgs
      fin_cases hkv
      simp only [show (if (("p_a" : String) == "p_a") = true
          then some [some "A"] else none) = some [some "A"] from rfl] at hgs
      cases hgs
      rfl)
  exact ⟨d, hd, hc "a" (some "v") rfl⟩

/-! ## Delimiter detection (claim C8, amended)

`Counter.most_common()` is a stable descending sort by count; the code
then takes the first sorted element that is a candidate delimiter.  The
lemmas below characterise that choice as `findBest`: the candidate with
the maximal count whose first occurrence in the string is earliest. -/

theorem mem_insertDesc (x a : Char × Nat) (l : List (Char × Nat)) :
    a ∈ insertDesc x l ↔ a = x ∨ a ∈ l := by
  induction l with
  | nil => simp [insertDesc]
  | cons y ys ih =>
      by_cases hc : x.2 < y.2 <;> simp [insertDesc, hc, ih] <;> tauto

theorem insertDesc_sorted (x : Char × Nat) :
    ∀ (l : List (Char × Nat)), l.Pairwise (fun a b => b.2 ≤ a.2) →
      (insertDesc x l).Pairwise (fun a b => b.2 ≤ a.2) := by
  intro l
  induction l with
  | nil => intro _; simp [insertDesc]
  | cons y ys ih =>
      intro h
      rw [List.pairwise_cons] at h
      by_cases hc : x.2 < y.2
      · simp only [insertDesc, hc, if_true]
        rw [List.pairwise_cons]
        refine ⟨?_, ih h.2⟩
        intro b hb
        rcases (mem_insertDesc x b ys).mp hb with rfl | hb
        · exact Nat.le_of_lt hc
        · exact h.1 b hb
      · simp only [insertDesc, hc, if_false]
        rw [List.pairwise_cons]
        refine ⟨?_, List.pairwise_cons.mpr h⟩
        intro b hb
        rcases List.mem_cons.mp hb with rfl | hb
        · omega
        · exact Nat.le_trans (h.1 b hb) (Nat.le_of_not_lt hc)

theorem find?_insertDesc_some (p : Char × Nat → Bool) (x f : Char × Nat) :
    ∀ (l : List (Char × Nat)), l.Pairwise (fun a b => b.2 ≤ a.2) →
      l.find? p = some f →
      (insertDesc x l).find? p
        = if x.2 < f.2 then some f else if p x then some x else some f := by
  intro l
  induction l with
  | nil => intro _ hf; cases hf
  | cons y ys ih =>
      intro hs hf
      rw [List.pairwise_cons] at hs
      by_cases hc : x.2 < y.2
      · simp only [insertDesc, hc, if_true]
        by_cases hpy : p y
        · rw [List.find?_cons_of_pos _ hpy] at hf
          cases hf
          rw [List.find?_cons_of_pos _ hpy]
          simp [hc]
        · rw [List.find?_cons_of_neg _ hpy] at hf
          rw [List.find?_cons_of_neg _ hpy]
          exact ih hs.2 hf
      · simp only [insertDesc, hc, if_false]
        have hmem : f ∈ y :: ys := List.mem_of_find?_eq_some hf
        have hfy : f.2 ≤ y.2 := by
          rcases List.mem_cons.mp hmem with rfl | hmem2
          · exact Nat.le_refl _
          · exact hs.1 f hmem2
        have hnlt : ¬ x.2 < f.2 := by omega
        by_cases hpx : p x
        · rw [List.find?_cons_of_pos _ hpx]
          simp [hnlt, hpx]
        · rw [List.find?_cons_of_neg _ hpx, hf]
          simp [hnlt, hpx]

theorem find?_insertDesc_none (p : Char × Nat → Bool) (x : Char × Nat) :
    ∀ (l : List (Char × Nat)), l.Pairwise (fun a b => b.2 ≤ a.2) →
      l.find? p = none →
      (insertDesc x l).find? p = if p x then some x else none := by
  intro l
  induction l with
  | nil =>
      intro _ _
      by_cases hpx : p x
      · simp [insertDesc, List.find?_cons_of_pos _ hpx, hpx]
      · simp [insertDesc, List.find?_cons_of_neg _ hpx, hpx]
  | cons y ys ih =>
      intro hs hf
      rw [List.pairwise_cons] at hs
      have hpy : ¬ p y = true := by
        intro hpy
        rw [List.find?_cons_of_pos _ hpy] at hf
        cases hf
      rw [List.find?_cons_of_neg _ hpy] at hf
      by_cases hc : x.2 < y.2
      · simp only [insertDesc, hc, if_true]
        rw [List.find?_cons_of_neg _ hpy]
        exact ih hs.2 hf
      · simp only [insertDesc, hc, if_false]
        by_cases hpx : p x
        · rw [List.find?_cons_of_pos _ hpx]
          simp [hpx]
        · rw [List.find?_cons_of_neg _ hpx, List.find?_cons_of_neg _ hpy, hf]
          simp [hpx]

theorem sortCountDesc_sorted :
    ∀ (l : List (Char × Nat)),
      (sortCountDesc l).Pairwise (fun a b => b.2 ≤ a.2) := by
  intro l
  induction l with
  | nil => simp [sortCountDesc]
  | cons x xs ih => exact insertDesc_sorted x _ ih

theorem find?_sortCountDesc (p : Char × Nat → Bool) :
    ∀ (l : List (Char × Nat)), (sortCountDesc l).find? p = findBest p l := by
  intro l
  induction l with
  | nil => rfl
  | cons x xs ih =>
      show (insertDesc x (sortCountDesc xs)).find? p = findBest p (x :: xs)
      cases h : (sortCountDesc xs).find? p with
      | some f =>
          rw [find?_insertDesc_some p x f _ (sortCountDesc_sorted xs) h]
          rw [h] at ih
          unfold findBest
          rw [← ih]
      | none =>
          rw [find?_insertDesc_none p x _ (sortCountDesc_sorted xs) h]
          rw [h] at ih
          unfold findBest
          rw [← ih]

theorem findBest_mem (p : Char × Nat → Bool) :
    ∀ (l : List (Char × Nat)) (f : Char × Nat),
      findBest p l = some f → f ∈ l ∧ p f = true := by
  intro l
  induction l with
  | nil => intro f hf; cases hf
  | cons x xs ih =>
      intro f hf
      unfold findBest at hf
      cases h : findBest p xs with
      | some f1 =>
          rw [h] at hf
          by_cases hlt : x.2 < f1.2
          · simp only [hlt, if_true] at hf
            cases hf
            obtain ⟨h1, h2⟩ := ih f h
            exact ⟨List.mem_cons_of_mem _ h1, h2⟩
          · simp only [hlt, if_false] at hf
            by_cases hpx : p x
            · simp only [hpx, if_true] at hf
              cases hf
              exact ⟨List.mem_cons_self _ _, hpx⟩
            · simp only [hpx, Bool.false_eq_true, if_false] at hf
              cases hf
              obtain ⟨h1, h2⟩ := ih f h
              exact ⟨List.mem_cons_of_mem _ h1, h2⟩
      | none =>
          rw [h] at hf
          by_cases hpx : p x
          · simp only [hpx, if_true] at hf
            cases hf
            exact ⟨List.mem_cons_self _ _, hpx⟩
          · simp [hpx] at hf

theorem findBest_none (p : Char × Nat → Bool) :
    ∀ (l : List (Char × Nat)), findBest p l = none →
      ∀ e ∈ l, p e = false := by
  intro l
  induction l with
  | nil => intro _ e he; cases he
  | cons x xs ih =>
      intro hf e he
      unfold findBest at hf
      cases h : findBest p xs with
      | some f1 =>
          rw [h] at hf
          by_cases hlt : x.2 < f1.2
          · simp [hlt] at hf
          · by_cases hpx : p x <;> simp [hlt, hpx] at hf
      | none =>
          rw [h] at hf
          by_cases hpx : p x
          · simp [hpx] at hf
          · rcases List.mem_cons.mp he with rfl | he2
            · exact Bool.not_eq_true _ |>.mp hpx
            · exact ih h e he2

theorem findBest_max (p : Char × Nat → Bool) :
    ∀ (l : List (Char × Nat)) (f : Char × Nat), findBest p l = some f →
      ∀ e ∈ l, p e = true → e.2 ≤ f.2 := by
  intro l
  induction l with
  | nil => intro f hf; cases hf
  | cons x xs ih =>
      intro f hf e he hpe
      unfold findBest at hf
      cases h : findBest p xs with
      | some f1 =>
          rw [h] at hf
          by_cases hlt : x.2 < f1.2
          · simp only [hlt, if_true] at hf
            cases hf
            rcases List.mem_cons.mp he with rfl | he2
            · exact Nat.le_of_lt hlt
            · exact ih f h e he2 hpe
          · simp only [hlt, if_false] at hf
            by_cases hpx : p x
            · simp only [hpx, if_true] at hf
              cases hf
              rcases List.mem_cons.mp he with rfl | he2
              · exact Nat.le_refl _
              · exact Nat.le_trans (ih f1 h e he2 hpe) (Nat.le_of_not_lt hlt)
            · simp only [hpx, Bool.false_eq_true, if_false] at hf
              cases hf
              rcases List.mem_cons.mp he with rfl | he2
              · exact absurd hpe (by simpa using hpx)
              · exact ih f h e he2 hpe
      | none =>
          rw [h] at hf
          by_cases hpx : p x
          · simp only [hpx, if_true] at hf
            cases hf
            rcases List.mem_cons.mp he with rfl | he2
            · exact Nat.le_refl _
            · exact absurd hpe (by simp [findBest_none p xs h e he2])
          · simp [hpx] at hf

theorem findBest_earliest (p : Char × Nat → Bool) (cnt : Char → Nat) :
    ∀ (keys : List Char), keys.Nodup →
      ∀ f, findBest p (keys.map (fun c => (c, cnt c))) = some f →
      ∀ c ∈ keys, p (c, cnt c) = true → cnt c = f.2 →
      posIn keys f.1 ≤ posIn keys c := by
  intro keys
  induction keys with
  | nil => intro _ f hf; cases hf
  | cons k rest ih =>
      intro hnd f hf c hc hpc hcnt
      rw [List.nodup_cons] at hnd
      rw [List.map_cons] at hf
      unfold findBest at hf
      have hlift : ∀ x, x ∈ rest → x ≠ k := fun x hx he => hnd.1 (he ▸ hx)
      cases h : findBest p (rest.map (fun c => (c, cnt c))) with
      | some f1 =>
          have hf1mem : f1.1 ∈ rest := by
            obtain ⟨hm, _⟩ := findBest_mem p _ f1 h
            obtain ⟨c1, hc1, he1⟩ := List.mem_map.mp hm
            rw [← he1]
            exact hc1
          rw [h] at hf
          by_cases hlt : (k, cnt k).2 < f1.2
          · simp only [hlt, if_true] at hf
            cases hf
            rcases List.mem_cons.mp hc with rfl | hc2
            · exfalso
              simp only at hlt
              omega
            · have := ih hnd.2 f h c hc2 hpc hcnt
              have hfk : ¬ (k = f.1) := fun he => hlift f.1 hf1mem he.symm
              have hck : ¬ (k = c) := fun he => hlift c hc2 he.symm
              simp only [posIn, if_neg hfk, if_neg hck]
              omega
          · simp only [hlt, if_false] at hf
            by_cases hpx : p (k, cnt k)
            · simp only [hpx, if_true] at hf
              cases hf
              simp [posIn]
            · simp only [hpx, Bool.false_eq_true, if_false] at hf
              cases hf
              rcases List.mem_cons.mp hc with rfl | hc2
              · exact absurd hpc (by simpa using hpx)
              · have := ih hnd.2 f h c hc2 hpc hcnt
                have hfk : ¬ (k = f.1) := fun he => hlift f.1 hf1mem he.symm
                have hck : ¬ (k = c) := fun he => hlift c hc2 he.symm
                simp only [posIn, if_neg hfk, if_neg hck]
                omega
      | none =>
          rw [h] at hf
          by_cases hpx : p (k, cnt k)
          · simp only [hpx, if_true] at hf
            cases hf
            simp [posIn]
          · simp [hpx] at hf

theorem mem_dedupFirstAux :
    ∀ (cs seen : List Char) (c : Char),
      c ∈ dedupFirstAux seen cs ↔ c ∈ cs ∧ c ∉ seen := by
  intro cs
  induction cs with
  | nil => intro seen c; simp [dedupFirstAux]
  | cons x rest ih =>
      intro seen c
      by_cases hx : x ∈ seen
      · simp only [dedupFirstAux, hx, if_true, ih, List.mem_cons]
        constructor
        · rintro ⟨h1, h2⟩
          exact ⟨Or.inr h1, h2⟩
        · rintro ⟨h1 | h1, h2⟩
          · subst h1; exact absurd hx h2
          · exact ⟨h1, h2⟩
      · simp only [dedupFirstAux, hx, if_false, List.mem_cons, ih]
        constructor
        · rintro (rfl | ⟨h1, h2⟩)
          · exact ⟨Or.inl rfl, hx⟩
          · push_neg at h2
            exact ⟨Or.inr h1, h2.2⟩
        · rintro ⟨rfl | h1, h2⟩
          · exact Or.inl rfl
          · by_cases hcx : c = x
            · exact Or.inl hcx
            · refine Or.inr ⟨h1, ?_⟩
              push_neg
              exact ⟨hcx, h2⟩

theorem mem_dedupFirst (cs : List Char) (c : Char) :
    c ∈ dedupFirst cs ↔ c ∈ cs := by
  unfold dedupFirst
  rw [mem_dedupFirstAux]
  simp

theorem nodup_dedupFirstAux :
    ∀ (cs seen : List Char), (dedupFirstAux seen cs).Nodup := by
  intro cs
  induction cs with
  | nil => intro seen; simp [dedupFirstAux]
  | cons x rest ih =>
      intro seen
      by_cases hx : x ∈ seen
      · simpa [dedupFirstAux, hx] using ih seen
      · simp only [dedupFirstAux, hx, if_false]
        rw [List.nodup_cons]
        refine ⟨?_, ih (x :: seen)⟩
        intro hmem
        rw [mem_dedupFirstAux] at hmem
        exact hmem.2 (List.mem_cons_self _ _)

theorem nodup_dedupFirst (cs : List Char) : (dedupFirst cs).Nodup :=
  nodup_dedupFirstAux cs []

theorem counterItems_mem {cs : List Char} {e : Char × Nat} :
    e ∈ counterItems cs ↔ e.1 ∈ cs ∧ e.2 = cs.count e.1 := by
  unfold counterItems
  rw [List.mem_map]
  constructor
  · rintro ⟨c, hc, rfl⟩
    exact ⟨(mem_dedupFirst cs c).mp hc, rfl⟩
  · rintro ⟨h1, h2⟩
    exact ⟨e.1, (mem_dedupFirst cs e.1).mpr h1, by rw [← h2]⟩

/-- The candidate-delimiter test of `DelimitedList.validate` /
`detectSep`, as a predicate on counter entries. -/
theorem detectSep_eq_findBest (s : String) (order : List Char) (dflt : Char) :
    detectSep s order dflt
      = match findBest (fun q => order.contains q.1) (counterItems s.data) with
        | some f => f.1
        | none => dflt := by
  unfold detectSep mostCommon
  rw [find?_sortCountDesc]

/-- Amended claim C8: `DelimitedList` parsing chooses a most frequent
candidate delimiter occurring in the string — defaulting to `,` when no
candidate occurs, with ties broken by FIRST OCCURRENCE in the string
(the insertion order of `Counter`), not by the priority list — splits
on it trimming whitespace, and the concrete round-trips hold: parsing
`a,b,c` then serializing yields `a,b,c`, and parsing `a;b;c` detects
`;` and round-trips with `;`. -/
theorem c8_amended_delimiter_detection :
    (∀ s : String, detectSep s delimitedOrder ',' ∈ delimitedOrder)
    ∧ (∀ (s : String) (c : Char), c ∈ delimitedOrder →
        s.data.count c ≤ s.data.count (detectSep s delimitedOrder ','))
    ∧ (∀ (s : String) (c : Char), c ∈ delimitedOrder → c ∈ s.data →
        s.data.count c = s.data.count (detectSep s delimitedOrder ',') →
        posIn (dedupFirst s.data) (detectSep s delimitedOrder ',')
          ≤ posIn (dedupFirst s.data) c)
    ∧ (∀ s : String, (∀ c ∈ delimitedOrder, c ∉ s.data) →
        detectSep s delimitedOrder ',' = ',')
    ∧ (∀ s : String, s ≠ "" →
        DelimitedList.validate s
          = ⟨(splitList s (detectSep s delimitedOrder ',').toString).map pyStrip,
             (detectSep s delimitedOrder ',').toString⟩)
    ∧ DelimitedList.validate "a,b,c" = ⟨["a", "b", "c"], ","⟩
    ∧ (DelimitedList.validate "a,b,c").render = "a,b,c"
    ∧ DelimitedList.validate "a;b;c" = ⟨["a", "b", "c"], ";"⟩
    ∧ (DelimitedList.validate "a;b;c").render = "a;b;c" := by
  have hPmem : ∀ (s : String) (f : Char × Nat),
      findBest (fun q => delimitedOrder.contains q.1) (counterItems s.data)
        = some f →
      f.1 ∈ delimitedOrder ∧ f.1 ∈ s.data ∧ f.2 = s.data.count f.1 := by
    intro s f hf
    obtain ⟨hm, hp⟩ := findBest_mem _ _ f hf
    obtain ⟨h1, h2⟩ := counterItems_mem.mp hm
    exact ⟨List.elem_iff.mp hp, h1, h2⟩
  have hNone : ∀ (s : String) (c : Char), c ∈ delimitedOrder → c ∈ s.data →
      findBest (fun q => delimitedOrder.contains q.1) (counterItems s.data)
        ≠ none := by
    intro s c hc hcs hnone
    have hmem : (c, s.data.count c) ∈ counterItems s.data :=
      counterItems_mem.mpr ⟨hcs, rfl⟩
    have := findBest_none _ _ hnone _ hmem
    have hsimp : delimitedOrder.contains c = false := by simpa using this
    have hcon : delimitedOrder.contains c = true := List.elem_iff.mpr hc
    rw [hcon] at hsimp
    cases hsimp
  refine ⟨?_, ?_, ?_, ?_, ?_, rfl, rfl, rfl, rfl⟩
  · intro s
    rw [detectSep_eq_findBest]
    cases hf : findBest (fun q => delimitedOrder.contains q.1)
        (counterItems s.data) with
    | some f => exact (hPmem s f hf).1
    | none => decide
  · intro s c hc
    rw [detectSep_eq_findBest]
    cases hf : findBest (fun q => delimitedOrder.contains q.1)
        (counterItems s.data) with
    | some f =>
        obtain ⟨hford, hfs, hfcnt⟩ := hPmem s f hf
        by_cases hcs : c ∈ s.data
        · have hmem : (c, s.data.count c) ∈ counterItems s.data :=
            counterItems_mem.mpr ⟨hcs, rfl⟩
          have := findBest_max _ _ f hf _ hmem (List.elem_iff.mpr hc)
          simpa [← hfcnt] using this
        · simp [List.count_eq_zero.mpr hcs]
    | none =>
        by_cases hcs : c ∈ s.data
        · exact absurd hf (hNone s c hc hcs)
        · simp [List.count_eq_zero.mpr hcs]
  · intro s c hc hcs hcount
    rw [detectSep_eq_findBest] at hcount ⊢
    cases hf : findBest (fun q => delimitedOrder.contains q.1)
        (counterItems s.data) with
    | some f =>
        rw [hf] at hcount
        obtain ⟨hford, hfs, hfcnt⟩ := hPmem s f hf
        have hkeys : counterItems s.data
            = (dedupFirst s.data).map (fun c => (c, s.data.count c)) := rfl
        rw [hkeys] at hf
        refine findBest_earliest _ _ (dedupFirst s.data) (nodup_dedupFirst _)
          f hf c ((mem_dedupFirst _ _).mpr hcs) (List.elem_iff.mpr hc) ?_
        rw [hcount, ← hfcnt]
    | none => exact absurd hf (hNone s c hc hcs)
  · intro s h
    rw [detectSep_eq_findBest]
    cases hf : findBest (fun q => delimitedOrder.contains q.1)
        (counterItems s.data) with
    | some f =>
        obtain ⟨hford, hfs, _⟩ := hPmem s f hf
        exact absurd hfs (h f.1 hford)
    | none => rfl
  · intro s hs
    unfold DelimitedList.validate
    simp [hs]

/-- Witness for the amended C8: in `x,,y;z` the candidate `,` occurs
twice and `;` once, so `,` is detected; its count bounds the count of
`;`, and `;`'s entry keeps first-occurrence position order. -/
theorem c8_amended_delimiter_detection_witness :
    ("x,,y;z".data.count ';' ≤ "x,,y;z".data.count
        (detectSep "x,,y;z" delimitedOrder ','))
    ∧ detectSep "x,,y;z" delimitedOrder ',' = ','
    ∧ DelimitedList.validate "a,b,c" = ⟨["a", "b", "c"], ","⟩ :=
  ⟨c8_amended_delimiter_detection.2.1 "x,,y;z" ';' (by decide),
    by decide,
    c8_amended_delimiter_detection.2.2.2.2.2.1⟩

end Cbconf
